import Mathlib

/-
Verification of the directory-tree scanner of the `hawking` build-directory
cleaner.  The filesystem is modelled as an inductive tree of entries; each
directory carries a `listable` flag that records whether listing it
(`fs.readdir`) succeeds.  The two core routines of `src/index.ts` —
`getDirectorySize` and `findBuildDirectories` (with its helper
`isRustProject`) — and the earlier version's `findNodeModules` are embedded
as total functions over that tree, and the specified properties are proved
about them.
-/

namespace Hawking

/-- One filesystem node: a regular file with a byte size as reported by
`fs.stat`, or a directory with an ordered child list as reported by
`fs.readdir` (`listable = false` models a directory whose `readdir` call
throws, e.g. permission denied). -/
inductive Entry where
  | file (name : String) (size : Nat)
  | dir (name : String) (listable : Bool) (children : List Entry)

/-- Name of an entry, as `readdir` reports it. -/
def entryName : Entry → String
  | .file n _ => n
  | .dir n _ _ => n

/-- A path is its list of components; `path.join` appends one component and
`path.dirname` drops the last one. -/
abbrev Path := List String

/-- Embeds `path.join(p, nm)`. -/
def pathJoin (p : Path) (nm : String) : Path := p ++ [nm]

/-- Embeds `path.dirname(p)`. -/
def pathDirname (p : Path) : Path := p.dropLast

/-- Embeds `nm.startsWith(".")`: a string starts with `"."` exactly when its
first character is `'.'`. -/
def startsWithDot (nm : String) : Bool :=
  match nm.data with
  | [] => false
  | c :: _ => c == '.'

/-- The `type` field of `ProjectInfo` in `src/index.ts`: `"node" | "rust"`. -/
inductive ProjType where
  | node
  | rust
deriving DecidableEq, Repr

/-- The `ProjectInfo` record of `src/index.ts`, restricted to the fields the
scanner's contract is about (`nice_path` is a cosmetic rendering of `path`
owned by the caller and is omitted). -/
structure ProjectInfo where
  path : Path
  size : Nat
  type : ProjType
deriving DecidableEq, Repr

/-- The loop body of `getDirectorySize` over the listed children: a file
child contributes its `stat` size, a directory child contributes its own
recursive `getDirectorySize` (which is `0` when its `readdir` fails, the
`catch` branch). -/
def sizeChildren : List Entry → Nat
  | [] => 0
  | .file _ s :: rest => s + sizeChildren rest
  | .dir _ true cc :: rest => sizeChildren cc + sizeChildren rest
  | .dir _ false _ :: rest => 0 + sizeChildren rest

/-- Embeds `getDirectorySize` of `src/index.ts` (lines 32–53): sums the
children when `readdir` succeeds, and returns the sum accumulated so far —
`0`, as the failure happens before the loop — when it throws. -/
def getDirectorySize : Entry → Nat
  | .file _ _ => 0
  | .dir _ false _ => 0
  | .dir _ true cs => sizeChildren cs

/-- The `files.includes("Cargo.toml")` test of `isRustProject`: `fs.readdir`
without file types lists every child name, files and directories alike. -/
def hasCargoToml (cs : List Entry) : Bool :=
  cs.any (fun c => entryName c == "Cargo.toml")

/-- Embeds `isRustProject` of `src/index.ts` (lines 55–62): lists the
directory and checks for a `Cargo.toml` entry, returning `false` when
`readdir` throws. -/
def isRustProject : Entry → Bool
  | .file _ _ => false
  | .dir _ false _ => false
  | .dir _ true cs => hasCargoToml cs

/-- The `for (const file of files)` loop of `findBuildDirectories`
(`src/index.ts` lines 71–107).  `startPath` is the directory being listed,
`parent` is that same directory as an entry (the argument
`path.dirname(fullPath)` of the `isRustProject` call resolves to it), and
`results` is the accumulator array.  A directory child named
`node_modules` is recorded; a child named `target` is recorded when
`isRustProject` confirms the parent; a child that is not hidden and not
artifact-named is recursed into (the recursive call returns `results`
unchanged when the child's own `readdir` fails); anything else is skipped. -/
def scanChildren (startPath : Path) (parent : Entry) :
    List Entry → List ProjectInfo → List ProjectInfo
  | [], results => results
  | .file _ _ :: rest, results => scanChildren startPath parent rest results
  | .dir nm l cc :: rest, results =>
    if nm == "node_modules" then
      scanChildren startPath parent rest
        (results ++ [{ path := pathDirname (pathJoin startPath nm),
                       size := getDirectorySize (.dir nm l cc), type := .node }])
    else if nm == "target" && isRustProject parent then
      scanChildren startPath parent rest
        (results ++ [{ path := pathDirname (pathJoin startPath nm),
                       size := getDirectorySize (.dir nm l cc), type := .rust }])
    else if (!startsWithDot nm) && nm != "node_modules" && nm != "target" then
      scanChildren startPath parent rest
        (if l then scanChildren (pathJoin startPath nm) (.dir nm l cc) cc results
         else results)
    else
      scanChildren startPath parent rest results
termination_by l _ => sizeOf l

/-- Embeds `findBuildDirectories` of `src/index.ts` (lines 64–113): lists
`startPath` and runs the loop, returning `results` unchanged when `readdir`
throws (the `catch` branch); the entry's own name is never examined. -/
def findBuildDirectories (startPath : Path) (e : Entry)
    (results : List ProjectInfo) : List ProjectInfo :=
  match e with
  | .file _ _ => results
  | .dir _ false _ => results
  | .dir _ true cs => scanChildren startPath e cs results

/-- The scan entry point: `findBuildDirectories(process.cwd())` with the
default empty accumulator. -/
def scan (startPath : Path) (root : Entry) : List ProjectInfo :=
  findBuildDirectories startPath root []

/-- The `ProjectInfo` record of the earlier version (`src/unnamed/part_000`),
which has no `type` field. -/
structure OldProjectInfo where
  path : Path
  size : Nat
deriving DecidableEq, Repr

/-- The loop of `findNodeModules` in the earlier version
(`src/unnamed/part_000` lines 47–74): records `node_modules` children and
recurses into any other non-hidden directory child (there is no `target`
handling). -/
def scanChildrenOld (startPath : Path) :
    List Entry → List OldProjectInfo → List OldProjectInfo
  | [], results => results
  | .file _ _ :: rest, results => scanChildrenOld startPath rest results
  | .dir nm l cc :: rest, results =>
    if nm == "node_modules" then
      scanChildrenOld startPath rest
        (results ++ [{ path := pathDirname (pathJoin startPath nm),
                       size := getDirectorySize (.dir nm l cc) }])
    else if (!startsWithDot nm) && nm != "node_modules" then
      scanChildrenOld startPath rest
        (if l then scanChildrenOld (pathJoin startPath nm) cc results
         else results)
    else
      scanChildrenOld startPath rest results
termination_by l _ => sizeOf l

/-- Embeds `findNodeModules` of `src/unnamed/part_000`: lists `startPath`
and runs the loop, returning `results` unchanged when `readdir` throws. -/
def findNodeModules (startPath : Path) (e : Entry)
    (results : List OldProjectInfo) : List OldProjectInfo :=
  match e with
  | .file _ _ => results
  | .dir _ false _ => results
  | .dir _ true cs => scanChildrenOld startPath cs results

/-- The old scan entry point. -/
def scanOld (startPath : Path) (root : Entry) : List OldProjectInfo :=
  findNodeModules startPath root []

/-- The recursion guard of `findBuildDirectories`: the scanner descends into
a directory child exactly when this holds of its name. -/
def recursableName (nm : String) : Bool :=
  (!startsWithDot nm) && nm != "node_modules" && nm != "target"

/-- Directories on which `findBuildDirectories` is invoked (whose `readdir`
the walk attempts), mirroring the loop: the start path always, plus,
beneath each non-hidden non-artifact-named directory child, the
invocations of the recursive call.  Matched and skipped children are never
visited. -/
def visitedChildren (startPath : Path) : List Entry → List Path
  | [] => []
  | .file _ _ :: rest => visitedChildren startPath rest
  | .dir nm l cc :: rest =>
    (if (!startsWithDot nm) && nm != "node_modules" && nm != "target" then
       pathJoin startPath nm ::
         (if l then visitedChildren (pathJoin startPath nm) cc else [])
     else []) ++ visitedChildren startPath rest
termination_by l => sizeOf l

/-- Paths of every directory the scan invokes `findBuildDirectories` on. -/
def visitedDirs (startPath : Path) (e : Entry) : List Path :=
  match e with
  | .file _ _ => [startPath]
  | .dir _ false _ => [startPath]
  | .dir _ true cs => startPath :: visitedChildren startPath cs

/-- Directories visited by the earlier version's `findNodeModules`, whose
recursion guard does not exclude `target`. -/
def visitedChildrenOld (startPath : Path) : List Entry → List Path
  | [] => []
  | .file _ _ :: rest => visitedChildrenOld startPath rest
  | .dir nm l cc :: rest =>
    (if (!startsWithDot nm) && nm != "node_modules" then
       pathJoin startPath nm ::
         (if l then visitedChildrenOld (pathJoin startPath nm) cc else [])
     else []) ++ visitedChildrenOld startPath rest
termination_by l => sizeOf l

/-- Paths of every directory the earlier version's scan invokes
`findNodeModules` on. -/
def visitedDirsOld (startPath : Path) (e : Entry) : List Path :=
  match e with
  | .file _ _ => [startPath]
  | .dir _ false _ => [startPath]
  | .dir _ true cs => startPath :: visitedChildrenOld startPath cs

/-- The artifact directory name each project type binds
(`node_modules` for node, `target` for rust). -/
def artifactDirName : ProjType → String
  | .node => "node_modules"
  | .rust => "target"

/-- Sanity example: the scanner on a concrete two-project tree. -/
def exRoot : Entry :=
  .dir "root" true
    [ .dir "projA" true
        [ .dir "node_modules" true [ .dir "pkg" true [ .file "index.js" 10 ] ] ],
      .dir "projB" true
        [ .file "Cargo.toml" 74,
          .dir "target" true [ .file "out.bin" 20 ] ] ]

/-- Results accumulate on the right: running the loop with accumulator
`res` appends to `res` exactly what the loop run with an empty accumulator
produces. -/
theorem scanChildren_append (p : Path) (par : Entry) (cs : List Entry)
    (res : List ProjectInfo) :
    scanChildren p par cs res = res ++ scanChildren p par cs [] := by
  match cs with
  | [] => simp [scanChildren]
  | .file n s :: rest =>
    simp only [scanChildren]
    exact scanChildren_append p par rest res
  | .dir nm l cc :: rest =>
    simp only [scanChildren]
    split
    · rw [scanChildren_append p par rest (res ++ _),
        scanChildren_append p par rest ([] ++ _)]
      simp
    · split
      · rw [scanChildren_append p par rest (res ++ _),
          scanChildren_append p par rest ([] ++ _)]
        simp
      · split
        · cases l with
          | true =>
            simp only [if_pos rfl, if_true]
            rw [scanChildren_append (pathJoin p nm) (.dir nm true cc) cc res,
              scanChildren_append p par rest (res ++ _),
              scanChildren_append p par rest (scanChildren _ _ cc [])]
            simp
          | false =>
            simp only [Bool.false_eq_true, if_neg, ite_false]
            exact scanChildren_append p par rest res
        · exact scanChildren_append p par rest res
termination_by sizeOf cs

/-- Accumulator lemma for the earlier version's loop. -/
theorem scanChildrenOld_append (p : Path) (cs : List Entry)
    (res : List OldProjectInfo) :
    scanChildrenOld p cs res = res ++ scanChildrenOld p cs [] := by
  match cs with
  | [] => simp [scanChildrenOld]
  | .file n s :: rest =>
    simp only [scanChildrenOld]
    exact scanChildrenOld_append p rest res
  | .dir nm l cc :: rest =>
    simp only [scanChildrenOld]
    split
    · rw [scanChildrenOld_append p rest (res ++ _),
        scanChildrenOld_append p rest ([] ++ _)]
      simp
    · split
      · cases l with
        | true =>
          simp only [if_pos rfl, if_true]
          rw [scanChildrenOld_append (pathJoin p nm) cc res,
            scanChildrenOld_append p rest (res ++ _),
            scanChildrenOld_append p rest (scanChildrenOld _ cc [])]
          simp
        | false =>
          simp only [Bool.false_eq_true, if_neg, ite_false]
          exact scanChildrenOld_append p rest res
      · exact scanChildrenOld_append p rest res
termination_by sizeOf cs

@[simp]
theorem pathDirname_pathJoin (p : Path) (nm : String) :
    pathDirname (pathJoin p nm) = p := by
  simp [pathDirname, pathJoin]

theorem recursableName_node : recursableName "node_modules" = false := by
  decide

theorem recursableName_target : recursableName "target" = false := by
  decide

theorem recursableName_hidden (nm : String) (h : startsWithDot nm = true) :
    recursableName nm = false := by
  simp [recursableName, h]

/-- Shape of every recorded match: its `projectPath` extends the start path,
and every component added below the start path passed the recursion guard
(it is not hidden and not an artifact name). -/
theorem mem_scanChildren_shape (p : Path) (par : Entry) (cs : List Entry)
    (res : List ProjectInfo) (m : ProjectInfo)
    (hm : m ∈ scanChildren p par cs res) :
    m ∈ res ∨ ∃ s, m.path = p ++ s ∧ ∀ nm ∈ s, recursableName nm = true := by
  match cs with
  | [] =>
    left
    simpa [scanChildren] using hm
  | .file n s :: rest =>
    simp only [scanChildren] at hm
    exact mem_scanChildren_shape p par rest res m hm
  | .dir nm l cc :: rest =>
    simp only [scanChildren] at hm
    split at hm
    · rcases mem_scanChildren_shape p par rest _ m hm with h | h
      · rcases List.mem_append.1 h with h | h
        · exact Or.inl h
        · right
          refine ⟨[], ?_, by simp⟩
          simp only [List.mem_singleton] at h
          simp [h]
      · exact Or.inr h
    · split at hm
      · rcases mem_scanChildren_shape p par rest _ m hm with h | h
        · rcases List.mem_append.1 h with h | h
          · exact Or.inl h
          · right
            refine ⟨[], ?_, by simp⟩
            simp only [List.mem_singleton] at h
            simp [h]
        · exact Or.inr h
      · split at hm
        · rcases mem_scanChildren_shape p par rest _ m hm with h | h
          · cases l with
            | true =>
              simp only [if_pos rfl, if_true] at h
              rcases mem_scanChildren_shape (pathJoin p nm) _ cc res m h with h2 | h2
              · exact Or.inl h2
              · right
                obtain ⟨s, hs, hall⟩ := h2
                refine ⟨nm :: s, ?_, ?_⟩
                · simp [pathJoin] at hs
                  simpa using hs
                · intro x hx
                  rcases List.mem_cons.1 hx with rfl | hx
                  · assumption
                  · exact hall x hx
            | false =>
              simp only [Bool.false_eq_true, if_neg, ite_false] at h
              exact Or.inl h
          · exact Or.inr h
        · exact mem_scanChildren_shape p par rest res m hm
termination_by sizeOf cs

/-- Shape of every visited directory below the start path: each component
of the relative path passed the recursion guard; in particular no visited
directory is hidden or artifact-named, and no visited directory lies below
one that is. -/
theorem mem_visitedChildren_shape (p : Path) (cs : List Entry) (q : Path)
    (hq : q ∈ visitedChildren p cs) :
    ∃ s, q = p ++ s ∧ s ≠ [] ∧ ∀ nm ∈ s, recursableName nm = true := by
  match cs with
  | [] => simp [visitedChildren] at hq
  | .file n s :: rest =>
    simp only [visitedChildren] at hq
    exact mem_visitedChildren_shape p rest q hq
  | .dir nm l cc :: rest =>
    simp only [visitedChildren] at hq
    rcases List.mem_append.1 hq with h | h
    · split at h
      · rcases List.mem_cons.1 h with rfl | h
        · exact ⟨[nm], by simp [pathJoin], by simp, by
            intro x hx
            rcases List.mem_cons.1 hx with rfl | hx
            · assumption
            · simp at hx⟩
        · cases l with
          | true =>
            simp only [if_true] at h
            obtain ⟨s, hs, -, hall⟩ := mem_visitedChildren_shape (pathJoin p nm) cc q h
            refine ⟨nm :: s, ?_, by simp, ?_⟩
            · simp [pathJoin] at hs
              simpa using hs
            · intro x hx
              rcases List.mem_cons.1 hx with rfl | hx
              · assumption
              · exact hall x hx
          | false =>
            simp at h
      · simp at h
    · exact mem_visitedChildren_shape p rest q h
termination_by sizeOf cs

/-- Every directory the walk visits is the start path itself or lies below
it with every relative component passing the recursion guard. -/
theorem mem_visitedDirs_shape (p : Path) (e : Entry) (q : Path)
    (hq : q ∈ visitedDirs p e) :
    q = p ∨ ∃ s, q = p ++ s ∧ s ≠ [] ∧ ∀ nm ∈ s, recursableName nm = true := by
  match e with
  | .file n s => left; simpa [visitedDirs] using hq
  | .dir n false cs => left; simpa [visitedDirs] using hq
  | .dir n true cs =>
    simp only [visitedDirs, List.mem_cons] at hq
    rcases hq with rfl | hq
    · exact Or.inl rfl
    · exact Or.inr (mem_visitedChildren_shape p cs q hq)

/-- Shape of every match of a whole scan. -/
theorem mem_scan_shape (p : Path) (t : Entry) (m : ProjectInfo)
    (hm : m ∈ scan p t) :
    ∃ s, m.path = p ++ s ∧ ∀ nm ∈ s, recursableName nm = true := by
  match t with
  | .file n s => simp [scan, findBuildDirectories] at hm
  | .dir n false cs => simp [scan, findBuildDirectories] at hm
  | .dir n true cs =>
    rcases mem_scanChildren_shape p _ cs [] m hm with h | h
    · simp at h
    · exact h

/-- Origin of every match the loop records beyond its accumulator: a
`node_modules` child of the listed directory (key `(p, node)`), a `target`
child of it (key `(p, rust)`), or a match found by recursing into one of
its guard-passing directory children (whose `projectPath` then extends
`p ++ [nm]` for that child's name `nm`). -/
theorem mem_scanChildren_cases (p : Path) (par : Entry) (cs : List Entry)
    (res : List ProjectInfo) (m : ProjectInfo)
    (hm : m ∈ scanChildren p par cs res) :
    m ∈ res ∨
    (m.path = p ∧ m.type = .node ∧ ∃ l cc, Entry.dir "node_modules" l cc ∈ cs) ∨
    (m.path = p ∧ m.type = .rust ∧ ∃ l cc, Entry.dir "target" l cc ∈ cs) ∨
    (∃ nm l cc, Entry.dir nm l cc ∈ cs ∧ recursableName nm = true ∧
      ∃ s, m.path = p ++ nm :: s) := by
  induction cs generalizing res with
  | nil =>
    left
    simpa [scanChildren] using hm
  | cons c rest ih =>
    match c with
    | .file n s =>
      simp only [scanChildren] at hm
      rcases ih res hm with h | h | h | h
      · exact Or.inl h
      · exact Or.inr <| Or.inl ⟨h.1, h.2.1, by
          obtain ⟨l, cc, hmem⟩ := h.2.2
          exact ⟨l, cc, List.mem_cons_of_mem _ hmem⟩⟩
      · exact Or.inr <| Or.inr <| Or.inl ⟨h.1, h.2.1, by
          obtain ⟨l, cc, hmem⟩ := h.2.2
          exact ⟨l, cc, List.mem_cons_of_mem _ hmem⟩⟩
      · obtain ⟨nm, l, cc, hmem, hrec, hs⟩ := h
        exact Or.inr <| Or.inr <| Or.inr ⟨nm, l, cc, List.mem_cons_of_mem _ hmem, hrec, hs⟩
    | .dir nm l cc =>
      simp only [scanChildren] at hm
      split at hm
      · rename_i hcond
        have hnm : nm = "node_modules" := eq_of_beq hcond
        rcases ih _ hm with h | h | h | h
        · rcases List.mem_append.1 h with h | h
          · exact Or.inl h
          · simp only [List.mem_singleton] at h
            subst h
            exact Or.inr <| Or.inl ⟨by simp, rfl, l, cc, by rw [← hnm]; exact List.mem_cons_self _ _⟩
        · exact Or.inr <| Or.inl ⟨h.1, h.2.1, by
            obtain ⟨l2, cc2, hmem⟩ := h.2.2
            exact ⟨l2, cc2, List.mem_cons_of_mem _ hmem⟩⟩
        · exact Or.inr <| Or.inr <| Or.inl ⟨h.1, h.2.1, by
            obtain ⟨l2, cc2, hmem⟩ := h.2.2
            exact ⟨l2, cc2, List.mem_cons_of_mem _ hmem⟩⟩
        · obtain ⟨nm2, l2, cc2, hmem, hrec, hs⟩ := h
          exact Or.inr <| Or.inr <| Or.inr
            ⟨nm2, l2, cc2, List.mem_cons_of_mem _ hmem, hrec, hs⟩
      · split at hm
        · rename_i hcond
          have hnm : nm = "target" := by
            have h' : (nm == "target") = true ∧ isRustProject par = true := by
              simpa [Bool.and_eq_true] using hcond
            exact eq_of_beq h'.1
          rcases ih _ hm with h | h | h | h
          · rcases List.mem_append.1 h with h | h
            · exact Or.inl h
            · simp only [List.mem_singleton] at h
              subst h
              exact Or.inr <| Or.inr <| Or.inl
                ⟨by simp, rfl, l, cc, by rw [← hnm]; exact List.mem_cons_self _ _⟩
          · exact Or.inr <| Or.inl ⟨h.1, h.2.1, by
              obtain ⟨l2, cc2, hmem⟩ := h.2.2
              exact ⟨l2, cc2, List.mem_cons_of_mem _ hmem⟩⟩
          · exact Or.inr <| Or.inr <| Or.inl ⟨h.1, h.2.1, by
              obtain ⟨l2, cc2, hmem⟩ := h.2.2
              exact ⟨l2, cc2, List.mem_cons_of_mem _ hmem⟩⟩
          · obtain ⟨nm2, l2, cc2, hmem, hrec, hs⟩ := h
            exact Or.inr <| Or.inr <| Or.inr
              ⟨nm2, l2, cc2, List.mem_cons_of_mem _ hmem, hrec, hs⟩
        · split at hm
          · rename_i hcond
            rcases ih _ hm with h | h | h | h
            · rcases h' : l with _ | _
              · subst h'
                simp only [Bool.false_eq_true, if_neg, ite_false] at h
                exact Or.inl h
              · subst h'
                simp only [if_true] at h
                rcases mem_scanChildren_shape (pathJoin p nm) _ cc res m h with h2 | h2
                · exact Or.inl h2
                · obtain ⟨s, hs, -⟩ := h2
                  refine Or.inr <| Or.inr <| Or.inr
                    ⟨nm, true, cc, List.mem_cons_self _ _, hcond, s, ?_⟩
                  simpa [pathJoin] using hs
            · exact Or.inr <| Or.inl ⟨h.1, h.2.1, by
                obtain ⟨l2, cc2, hmem⟩ := h.2.2
                exact ⟨l2, cc2, List.mem_cons_of_mem _ hmem⟩⟩
            · exact Or.inr <| Or.inr <| Or.inl ⟨h.1, h.2.1, by
                obtain ⟨l2, cc2, hmem⟩ := h.2.2
                exact ⟨l2, cc2, List.mem_cons_of_mem _ hmem⟩⟩
            · obtain ⟨nm2, l2, cc2, hmem, hrec, hs⟩ := h
              exact Or.inr <| Or.inr <| Or.inr
                ⟨nm2, l2, cc2, List.mem_cons_of_mem _ hmem, hrec, hs⟩
          · rcases ih res hm with h | h | h | h
            · exact Or.inl h
            · exact Or.inr <| Or.inl ⟨h.1, h.2.1, by
                obtain ⟨l2, cc2, hmem⟩ := h.2.2
                exact ⟨l2, cc2, List.mem_cons_of_mem _ hmem⟩⟩
            · exact Or.inr <| Or.inr <| Or.inl ⟨h.1, h.2.1, by
                obtain ⟨l2, cc2, hmem⟩ := h.2.2
                exact ⟨l2, cc2, List.mem_cons_of_mem _ hmem⟩⟩
            · obtain ⟨nm2, l2, cc2, hmem, hrec, hs⟩ := h
              exact Or.inr <| Or.inr <| Or.inr
                ⟨nm2, l2, cc2, List.mem_cons_of_mem _ hmem, hrec, hs⟩

/-- Filesystem well-formedness for a child list: the sibling names of every
directory in it are pairwise distinct (a real filesystem never lists two
children of one directory under the same name). -/
def uniqSibAux : List Entry → Prop
  | [] => True
  | .file _ _ :: rest => uniqSibAux rest
  | .dir _ _ cc :: rest =>
    ((cc.map entryName).Nodup ∧ uniqSibAux cc) ∧ uniqSibAux rest
termination_by l => sizeOf l

/-- Filesystem well-formedness of a tree: every directory's child names are
pairwise distinct. -/
def uniqueSiblings : Entry → Prop
  | .file _ _ => True
  | .dir _ _ cs => (cs.map entryName).Nodup ∧ uniqSibAux cs

theorem uniqSibAux_of_mem (cs : List Entry) (e : Entry)
    (h : uniqSibAux cs) (hmem : e ∈ cs) : uniqueSiblings e := by
  match cs with
  | [] => simp at hmem
  | .file n s :: rest =>
    simp only [uniqSibAux] at h
    rcases List.mem_cons.1 hmem with rfl | hmem2
    · simp [uniqueSiblings]
    · exact uniqSibAux_of_mem rest e h hmem2
  | .dir n l cc :: rest =>
    simp only [uniqSibAux] at h
    rcases List.mem_cons.1 hmem with rfl | hmem2
    · simp only [uniqueSiblings]
      exact ⟨h.1.1, h.1.2⟩
    · exact uniqSibAux_of_mem rest e h.2 hmem2
termination_by sizeOf cs

/-- Key uniqueness of the loop's output: with pairwise-distinct sibling
names everywhere, no two recorded matches agree on both `projectPath` and
`projectType`. -/
theorem scanChildren_keys_nodup (p : Path) (par : Entry) (cs : List Entry)
    (h1 : (cs.map entryName).Nodup) (h2 : uniqSibAux cs) :
    ((scanChildren p par cs []).map fun m => (m.path, m.type)).Nodup := by
  match cs with
  | [] => simp [scanChildren]
  | .file n s :: rest =>
    simp only [scanChildren]
    simp only [List.map_cons, entryName, List.nodup_cons] at h1
    simp only [uniqSibAux] at h2
    exact scanChildren_keys_nodup p par rest h1.2 h2
  | .dir nm l cc :: rest =>
    simp only [List.map_cons, entryName, List.nodup_cons] at h1
    simp only [uniqSibAux] at h2
    simp only [scanChildren]
    split
    · rename_i hcond
      have hnm : nm = "node_modules" := eq_of_beq hcond
      rw [scanChildren_append p par rest ([] ++ _)]
      simp only [List.nil_append, List.map_append, List.map_cons, List.map_nil]
      rw [List.nodup_append]
      refine ⟨by simp, scanChildren_keys_nodup p par rest h1.2 h2.2, ?_⟩
      intro a ha
      simp only [List.map_cons, List.map_nil, List.mem_singleton] at ha
      subst ha
      simp only [pathDirname_pathJoin]
      intro hmem2
      obtain ⟨m', hm', hk⟩ := List.mem_map.1 hmem2
      rcases mem_scanChildren_cases p par rest [] m' hm' with h | h | h | h
      · simp at h
      · obtain ⟨-, -, l2, cc2, hmem⟩ := h
        exact h1.1 (by
          subst hnm
          exact List.mem_map.2 ⟨_, hmem, rfl⟩)
      · have : m'.type = ProjType.rust := h.2.1
        have : ProjType.node = ProjType.rust := by
          have hk2 := congrArg Prod.snd hk
          simp at hk2
          rw [← hk2, this]
        exact absurd this (by simp)
      · obtain ⟨nm2, l2, cc2, hmem, hrec, s, hs⟩ := h
        have hp := congrArg Prod.fst hk
        simp only at hp
        rw [hs] at hp
        have : (nm2 :: s : List String) = [] := by
          have := List.append_cancel_left (hp.trans (List.append_nil p).symm)
          exact this
        simp at this
    · split
      · rename_i hcond
        have hnm : nm = "target" := by
          have h' : (nm == "target") = true ∧ isRustProject par = true := by
            simpa [Bool.and_eq_true] using hcond
          exact eq_of_beq h'.1
        rw [scanChildren_append p par rest ([] ++ _)]
        simp only [List.nil_append, List.map_append, List.map_cons, List.map_nil]
        rw [List.nodup_append]
        refine ⟨by simp, scanChildren_keys_nodup p par rest h1.2 h2.2, ?_⟩
        intro a ha
        simp only [List.map_cons, List.map_nil, List.mem_singleton] at ha
        subst ha
        simp only [pathDirname_pathJoin]
        intro hmem2
        obtain ⟨m', hm', hk⟩ := List.mem_map.1 hmem2
        rcases mem_scanChildren_cases p par rest [] m' hm' with h | h | h | h
        · simp at h
        · have : m'.type = ProjType.node := h.2.1
          have : ProjType.rust = ProjType.node := by
            have hk2 := congrArg Prod.snd hk
            simp at hk2
            rw [← hk2, this]
          exact absurd this (by simp)
        · obtain ⟨-, -, l2, cc2, hmem⟩ := h
          exact h1.1 (by
            subst hnm
            exact List.mem_map.2 ⟨_, hmem, rfl⟩)
        · obtain ⟨nm2, l2, cc2, hmem, hrec, s, hs⟩ := h
          have hp := congrArg Prod.fst hk
          simp only at hp
          rw [hs] at hp
          have : (nm2 :: s : List String) = [] := by
            exact List.append_cancel_left (hp.trans (List.append_nil p).symm)
          simp at this
      · split
        · rename_i hcond
          cases l with
          | false =>
            simp only [Bool.false_eq_true, if_neg, ite_false]
            exact scanChildren_keys_nodup p par rest h1.2 h2.2
          | true =>
            simp only [if_true]
            rw [scanChildren_append p par rest (scanChildren _ _ cc [])]
            rw [List.map_append, List.nodup_append]
            refine ⟨scanChildren_keys_nodup (pathJoin p nm) _ cc h2.1.1 h2.1.2,
              scanChildren_keys_nodup p par rest h1.2 h2.2, ?_⟩
            intro a ha
            simp only [List.mem_map] at ha
            obtain ⟨m1, hm1, hk1⟩ := ha
            intro hmem2
            obtain ⟨m2, hm2, hk2⟩ := List.mem_map.1 hmem2
            rcases mem_scanChildren_shape (pathJoin p nm) _ cc [] m1 hm1 with h | h
            · simp at h
            · obtain ⟨s1, hs1, -⟩ := h
              rcases mem_scanChildren_cases p par rest [] m2 hm2 with h | h | h | h
              · simp at h
              · have hpaths : m1.path = m2.path := by
                  have := hk2.trans hk1.symm
                  exact (congrArg Prod.fst this).symm
                rw [hs1, h.1] at hpaths
                simp [pathJoin] at hpaths
              · have hpaths : m1.path = m2.path := by
                  have := hk2.trans hk1.symm
                  exact (congrArg Prod.fst this).symm
                rw [hs1, h.1] at hpaths
                simp [pathJoin] at hpaths
              · obtain ⟨nm2, l2, cc2, hmem, -, s2, hs2⟩ := h
                have hpaths : m1.path = m2.path := by
                  have := hk2.trans hk1.symm
                  exact (congrArg Prod.fst this).symm
                rw [hs1, hs2] at hpaths
                have hcons : (nm :: s1 : List String) = nm2 :: s2 := by
                  have hp2 : p ++ (nm :: s1) = p ++ (nm2 :: s2) := by
                    simpa [pathJoin] using hpaths
                  exact List.append_cancel_left hp2
                have hnm2 : nm = nm2 := (List.cons_eq_cons.1 hcons).1
                exact h1.1 (by
                  rw [hnm2]
                  exact List.mem_map.2 ⟨_, hmem, rfl⟩)
        · exact scanChildren_keys_nodup p par rest h1.2 h2.2
termination_by sizeOf cs

/-- The entry reachable from a root entry by following a relative component
path: `EntryAt t s e` holds when descending from `t` through children named
by the components of `s` can reach `e`. -/
inductive EntryAt : Entry → Path → Entry → Prop where
  | refl (e : Entry) : EntryAt e [] e
  | step {n : String} {l : Bool} {cs : List Entry} {c : Entry} {s : Path}
      {e : Entry} (hmem : c ∈ cs) (hat : EntryAt c s e) :
      EntryAt (.dir n l cs) (entryName c :: s) e

theorem EntryAt_aux_snoc {t e2 : Entry} {s : Path} (h : EntryAt t s e2) :
    ∀ {n : String} {l : Bool} {cs : List Entry} {c : Entry},
      e2 = .dir n l cs → c ∈ cs → EntryAt t (s ++ [entryName c]) c := by
  induction h with
  | refl e =>
    intro n l cs c he hmem
    subst he
    exact .step hmem (.refl c)
  | step hmem2 hat ih =>
    intro n l cs c he hmem
    exact .step hmem2 (ih he hmem)

theorem EntryAt.snoc {t : Entry} {s : Path} {n : String} {l : Bool}
    {cs : List Entry} {c : Entry} (h : EntryAt t s (.dir n l cs))
    (hmem : c ∈ cs) : EntryAt t (s ++ [entryName c]) c :=
  EntryAt_aux_snoc h rfl hmem

theorem EntryAt_cons_inv {n : String} {l : Bool} {cs : List Entry}
    {x : String} {s : Path} {e' : Entry}
    (h : EntryAt (.dir n l cs) (x :: s) e') :
    ∃ c ∈ cs, entryName c = x ∧ EntryAt c s e' := by
  cases h with
  | step hmem hat => exact ⟨_, hmem, rfl, hat⟩

theorem EntryAt_unique {t : Entry} (hu : uniqueSiblings t) {s : Path}
    {e e' : Entry} (h1 : EntryAt t s e) (h2 : EntryAt t s e') : e = e' := by
  induction h1 generalizing e' with
  | refl =>
    cases h2 with
    | refl => rfl
  | @step n l cs c s1 e1 hmem hat ih =>
    obtain ⟨c', hmem', hname, hat'⟩ := EntryAt_cons_inv h2
    have hcc : c' = c := by
      simp only [uniqueSiblings] at hu
      exact List.inj_on_of_nodup_map hu.1 hmem' hmem hname
    subst hcc
    exact ih (uniqSibAux_of_mem cs c'
      (by simp only [uniqueSiblings] at hu; exact hu.2) hmem) hat'

/-- Every rust match the loop records beyond its accumulator is justified:
the directory at its `projectPath` really is confirmed by `isRustProject`
(its listing contains a `Cargo.toml` entry).  The invariant carries the
position of the directory currently being listed. -/
theorem scanChildren_rust_justified (t0 : Entry) (p0 : Path)
    (cs : List Entry) (p : Path) (n : String) (lv : Bool) (pcs : List Entry)
    (res : List ProjectInfo) (s0 : Path) (hp : p = p0 ++ s0)
    (hat : EntryAt t0 s0 (.dir n lv pcs)) (hsub : cs ⊆ pcs) (m : ProjectInfo)
    (hm : m ∈ scanChildren p (.dir n lv pcs) cs res) :
    m ∈ res ∨ (m.type = .rust →
      ∃ s e, m.path = p0 ++ s ∧ EntryAt t0 s e ∧ isRustProject e = true) := by
  match cs with
  | [] =>
    left
    simpa [scanChildren] using hm
  | .file n2 s2 :: rest =>
    simp only [scanChildren] at hm
    exact scanChildren_rust_justified t0 p0 rest p n lv pcs res s0 hp hat
      (List.subset_of_cons_subset hsub) m hm
  | .dir nm l cc :: rest =>
    simp only [scanChildren] at hm
    split at hm
    · rcases scanChildren_rust_justified t0 p0 rest p n lv pcs _ s0 hp hat
        (List.subset_of_cons_subset hsub) m hm with h | h
      · rcases List.mem_append.1 h with h | h
        · exact Or.inl h
        · simp only [List.mem_singleton] at h
          subst h
          right
          intro htype
          simp at htype
      · exact Or.inr h
    · split at hm
      · rename_i hcond
        have hrust : isRustProject (.dir n lv pcs) = true :=
          ((Bool.and_eq_true _ _).mp hcond).2
        rcases scanChildren_rust_justified t0 p0 rest p n lv pcs _ s0 hp hat
          (List.subset_of_cons_subset hsub) m hm with h | h
        · rcases List.mem_append.1 h with h | h
          · exact Or.inl h
          · simp only [List.mem_singleton] at h
            subst h
            right
            intro _
            exact ⟨s0, .dir n lv pcs, by simp [hp], hat, hrust⟩
        · exact Or.inr h
      · split at hm
        · rcases scanChildren_rust_justified t0 p0 rest p n lv pcs _ s0 hp hat
            (List.subset_of_cons_subset hsub) m hm with h | h
          · cases l with
            | false =>
              simp only [Bool.false_eq_true, if_neg, ite_false] at h
              exact Or.inl h
            | true =>
              simp only [if_true] at h
              have hat2 : EntryAt t0 (s0 ++ [nm]) (.dir nm true cc) := by
                have := EntryAt.snoc hat (hsub (List.mem_cons_self _ _))
                simpa [entryName] using this
              rcases scanChildren_rust_justified t0 p0 cc (pathJoin p nm) nm
                true cc res (s0 ++ [nm]) (by simp [pathJoin, hp])
                hat2 (List.Subset.refl cc) m h with h2 | h2
              · exact Or.inl h2
              · exact Or.inr h2
          · exact Or.inr h
        · exact scanChildren_rust_justified t0 p0 rest p n lv pcs res s0 hp hat
            (List.subset_of_cons_subset hsub) m hm
termination_by sizeOf cs

/-- Holds of a child list when the tree below it contains no artifact
directory: no directory child named `node_modules`, and no directory child
named `target` whose parent (the directory owning `parentChildren`)
contains a `Cargo.toml` entry, recursively at every depth. -/
def noArtifactsIn (parentChildren : List Entry) : List Entry → Bool
  | [] => true
  | .file _ _ :: rest => noArtifactsIn parentChildren rest
  | .dir nm _ cc :: rest =>
    (!(nm == "node_modules")) && (!(nm == "target" && hasCargoToml parentChildren)) &&
      noArtifactsIn cc cc && noArtifactsIn parentChildren rest
termination_by l => sizeOf l

/-- The tree contains no artifact directory at any depth. -/
def noArtifacts : Entry → Bool
  | .file _ _ => true
  | .dir _ _ cs => noArtifactsIn cs cs

/-- Holds of a child list when no directory named `target` occurs anywhere
below it. -/
def noTargetIn : List Entry → Bool
  | [] => true
  | .file _ _ :: rest => noTargetIn rest
  | .dir nm _ cc :: rest => (!(nm == "target")) && noTargetIn cc && noTargetIn rest
termination_by l => sizeOf l

/-- The tree contains no directory named `target` at any depth. -/
def noTargetDir : Entry → Bool
  | .file _ _ => true
  | .dir _ _ cs => noTargetIn cs

/-- On an artifact-free child list the loop records nothing. -/
theorem noArtifacts_scanChildren (cs : List Entry) (p : Path) (n : String)
    (pcs : List Entry) (res : List ProjectInfo)
    (h : noArtifactsIn pcs cs = true) :
    scanChildren p (.dir n true pcs) cs res = res := by
  match cs with
  | [] => simp [scanChildren]
  | .file n2 s2 :: rest =>
    simp only [noArtifactsIn] at h
    simp only [scanChildren]
    exact noArtifacts_scanChildren rest p n pcs res h
  | .dir nm l cc :: rest =>
    simp only [noArtifactsIn, Bool.and_eq_true] at h
    obtain ⟨⟨⟨hnode, htgt⟩, hcc⟩, hrest⟩ := h
    simp only [scanChildren]
    split
    · rename_i hcond
      rw [hcond] at hnode
      simp at hnode
    · split
      · rename_i hcond
        have : (nm == "target" && hasCargoToml pcs) = true := by
          simpa [isRustProject] using hcond
        rw [this] at htgt
        simp at htgt
      · split
        · cases l with
          | true =>
            simp only [if_true]
            rw [noArtifacts_scanChildren cc (pathJoin p nm) nm cc res hcc]
            exact noArtifacts_scanChildren rest p n pcs res hrest
          | false =>
            simp only [Bool.false_eq_true, if_neg, ite_false]
            exact noArtifacts_scanChildren rest p n pcs res hrest
        · exact noArtifacts_scanChildren rest p n pcs res hrest
termination_by sizeOf cs

/-- With no `target` directory anywhere below, the earlier version's walk
visits exactly the directories the later version's walk visits. -/
theorem old_new_visited (cs : List Entry) (p : Path)
    (h : noTargetIn cs = true) :
    visitedChildrenOld p cs = visitedChildren p cs := by
  match cs with
  | [] => simp [visitedChildrenOld, visitedChildren]
  | .file n2 s2 :: rest =>
    simp only [noTargetIn] at h
    simp only [visitedChildrenOld, visitedChildren]
    exact old_new_visited rest p h
  | .dir nm l cc :: rest =>
    simp only [noTargetIn, Bool.and_eq_true] at h
    obtain ⟨⟨hnm, hcc⟩, hrest⟩ := h
    have hbne : (nm != "target") = true := by
      simp only [bne]
      simpa using hnm
    simp only [visitedChildrenOld, visitedChildren, hbne, Bool.and_true]
    rw [old_new_visited rest p hrest]
    congr 1
    split
    · congr 1
      split
      · exact old_new_visited cc (pathJoin p nm) hcc
      · rfl
    · rfl
termination_by sizeOf cs

/-- With no `target` directory anywhere below, the earlier and later
versions' loops record the same matches in the same order, up to the later
version's extra `type` field. -/
theorem old_new_scan (cs : List Entry) (p : Path) (par : Entry)
    (h : noTargetIn cs = true) :
    (scanChildrenOld p cs []).map (fun m => (m.path, m.size)) =
      (scanChildren p par cs []).map (fun m => (m.path, m.size)) := by
  match cs with
  | [] => simp [scanChildrenOld, scanChildren]
  | .file n2 s2 :: rest =>
    simp only [noTargetIn] at h
    simp only [scanChildrenOld, scanChildren]
    exact old_new_scan rest p par h
  | .dir nm l cc :: rest =>
    simp only [noTargetIn, Bool.and_eq_true] at h
    obtain ⟨⟨hnm, hcc⟩, hrest⟩ := h
    have hbne : (nm != "target") = true := by
      simp only [bne]
      simpa using hnm
    have heqf : (nm == "target") = false := by
      simpa using hnm
    simp only [scanChildrenOld, scanChildren, heqf, Bool.false_and, Bool.and_true,
      hbne, Bool.false_eq_true, if_false]
    split
    · rw [scanChildrenOld_append p rest ([] ++ _),
        scanChildren_append p par rest ([] ++ _)]
      simp only [List.nil_append, List.map_append, List.map_cons, List.map_nil]
      rw [old_new_scan rest p par hrest]
    · split
      · cases l with
        | true =>
          simp only [if_true]
          rw [scanChildrenOld_append p rest (scanChildrenOld _ cc []),
            scanChildren_append p par rest (scanChildren _ _ cc [])]
          simp only [List.map_append]
          rw [old_new_scan rest p par hrest,
            old_new_scan cc (pathJoin p nm) (.dir nm true cc) hcc]
        | false =>
          simp only [Bool.false_eq_true, if_neg, ite_false]
          exact old_new_scan rest p par hrest
      · exact old_new_scan rest p par hrest
termination_by sizeOf cs

/-- Contribution of one listed child to `getDirectorySize`: `stat` size for
a file, recursive size for a directory. -/
theorem sizeChildren_eq_sum (cs : List Entry) :
    sizeChildren cs = (cs.map fun c =>
      match c with
      | .file _ sz => sz
      | .dir n2 l2 cc2 => getDirectorySize (.dir n2 l2 cc2)).sum := by
  induction cs with
  | nil => simp [sizeChildren]
  | cons c rest ih =>
    match c with
    | .file n sz => simp [sizeChildren, ih]
    | .dir n true cc => simp [sizeChildren, getDirectorySize, ih]
    | .dir n false cc => simp [sizeChildren, getDirectorySize, ih]

/-- Unfolding of the recursion guard. -/
theorem recursableName_spec (nm : String) (h : recursableName nm = true) :
    startsWithDot nm = false ∧ nm ≠ "node_modules" ∧ nm ≠ "target" := by
  simp only [recursableName, Bool.and_eq_true, Bool.not_eq_true', bne_iff_ne] at h
  exact ⟨h.1.1, h.1.2, h.2⟩

/-- Tree for the concrete size computation of C4. -/
def exC4 : Entry :=
  .dir "d" true
    [ .file "a" 100, .file "b" 250, .dir "sub" true [ .file "c" 50 ] ]

/-- Tree for the concrete size-degradation example of C6: the unreadable
subdirectory contributes zero, its siblings still count. -/
def exC6size : Entry :=
  .dir "d" true
    [ .file "a" 5, .dir "u" false [ .file "big" 100 ], .file "b" 7 ]

/-- Tree for the concrete walk-continuation example of C6: the first child
cannot be listed, the sibling after it is still scanned. -/
def exC6scan : Entry :=
  .dir "r" true
    [ .dir "unreadable" false [ .dir "node_modules" true [ .file "x" 99 ] ],
      .dir "projC" true [ .dir "node_modules" true [ .file "y" 3 ] ] ]

/-- C4: `computeSize` (`getDirectorySize`) of a listable directory equals
the sum over its immediate children of the recursive size of each directory
child plus the metadata-reported byte length of each file child; on a
directory with files of sizes 100 and 250 and a subdirectory holding one
file of size 50 it returns 400. -/
theorem C4_size_is_child_sum :
    (∀ (n : String) (cs : List Entry),
      getDirectorySize (.dir n true cs) = (cs.map fun c =>
        match c with
        | .file _ sz => sz
        | .dir n2 l2 cc2 => getDirectorySize (.dir n2 l2 cc2)).sum) ∧
    getDirectorySize exC4 = 400 := by
  constructor
  · intro n cs
    simp only [getDirectorySize]
    exact sizeChildren_eq_sum cs
  · simp [exC4, getDirectorySize, sizeChildren]

/-- C5: end-to-end run on the two-project tree — one Node project of size
10 and one Cargo-confirmed Rust project of size 20, reported in traversal
order with the parent directory as `projectPath`. -/
theorem C5_end_to_end :
    scan ["root"] exRoot =
      [ { path := ["root", "projA"], size := 10, type := .node },
        { path := ["root", "projB"], size := 20, type := .rust } ] := by
  simp [scan, findBuildDirectories, scanChildren, getDirectorySize, sizeChildren,
    isRustProject, hasCargoToml, entryName, pathJoin, pathDirname, exRoot, startsWithDot]

/-- C6: listing errors are recovered locally.  An unlistable directory
contributes the sum accumulated before the failure (zero, as `readdir`
fails before the loop) to the size computation; `findBuildDirectories` on
an unlistable directory returns its accumulator unchanged; the loop passes
over an unlistable guard-passing child and continues with the remaining
siblings; concretely, a size computation with an unreadable subtree still
sums the readable siblings, and a scan whose first child is unreadable
still reports the match under the later sibling. -/
theorem C6_errors_recovered :
    (∀ (n : String) (cs : List Entry), getDirectorySize (.dir n false cs) = 0) ∧
    (∀ (p : Path) (n : String) (cs : List Entry) (res : List ProjectInfo),
      findBuildDirectories p (.dir n false cs) res = res) ∧
    (∀ (p : Path) (par : Entry) (nm : String) (cc rest : List Entry)
      (res : List ProjectInfo), recursableName nm = true →
      scanChildren p par (.dir nm false cc :: rest) res = scanChildren p par rest res) ∧
    getDirectorySize exC6size = 12 ∧
    scan ["r"] exC6scan = [{ path := ["r", "projC"], size := 3, type := .node }] := by
  refine ⟨fun n cs => rfl, fun p n cs res => rfl, ?_, ?_, ?_⟩
  · intro p par nm cc rest res h
    obtain ⟨hdot, hnode, htgt⟩ := recursableName_spec nm h
    have hnodeb : (nm == "node_modules") = false := by simpa using hnode
    have htgtb : (nm == "target") = false := by simpa using htgt
    simp only [scanChildren, hnodeb, htgtb, Bool.false_and, Bool.false_eq_true,
      if_false, ite_self]
  · simp [exC6size, getDirectorySize, sizeChildren]
  · simp [scan, findBuildDirectories, scanChildren, getDirectorySize, sizeChildren,
      isRustProject, hasCargoToml, entryName, pathJoin, pathDirname, exC6scan,
      startsWithDot]

/-- Witness for C6: the loop on a concrete unlistable child continues with
the remaining siblings. -/
theorem C6_witness :
    scanChildren ["r"] (.dir "r" true []) [.dir "sub" false []] [] =
      scanChildren ["r"] (.dir "r" true []) [] [] :=
  C6_errors_recovered.2.2.1 ["r"] (.dir "r" true []) "sub" [] [] []
    (by decide)

/-- A single project directory that is both a Node and a confirmed Rust
project: it contains a `Cargo.toml`, a `node_modules` directory and a
`target` directory side by side. -/
def exC1 : Entry :=
  .dir "r" true
    [ .file "Cargo.toml" 74,
      .dir "node_modules" true [ .file "x" 1 ],
      .dir "target" true [ .file "y" 2 ] ]

/-- C1, counterexample: on a parent holding both a `node_modules` and a
confirmed `target`, the scan records two matches with the same
`projectPath` (one per project type), so the result's `projectPath`s are
not pairwise distinct. -/
theorem C1_counterexample :
    ¬ ((scan ["r"] exC1).map ProjectInfo.path).Nodup := by
  have hev : scan ["r"] exC1 =
      [ { path := ["r"], size := 1, type := .node },
        { path := ["r"], size := 2, type := .rust } ] := by
    simp [scan, findBuildDirectories, scanChildren, getDirectorySize, sizeChildren,
      isRustProject, hasCargoToml, entryName, pathJoin, pathDirname, exC1,
      startsWithDot]
  rw [hev]
  simp

/-- C1, amended: on any tree whose sibling names are pairwise distinct (as
on a real filesystem), no two entries of the scan's result agree on both
`projectPath` and `projectType`; `projectPath` alone repeats exactly when
one parent owns both a `node_modules` and a confirmed `target`. -/
theorem C1_unique_path_and_type (p : Path) (t : Entry)
    (h : uniqueSiblings t) :
    ((scan p t).map fun m => (m.path, m.type)).Nodup := by
  match t with
  | .file n s => simp [scan, findBuildDirectories]
  | .dir n false cs => simp [scan, findBuildDirectories]
  | .dir n true cs =>
    simp only [uniqueSiblings] at h
    exact scanChildren_keys_nodup p _ cs h.1 h.2

/-- Witness for C1: the amended uniqueness at the concrete two-project
tree. -/
theorem C1_witness :
    ((scan ["root"] exRoot).map fun m => (m.path, m.type)).Nodup := by
  refine C1_unique_path_and_type ["root"] exRoot ?_
  simp [exRoot, uniqueSiblings, uniqSibAux, entryName]

/-- C7: hidden directories are never recursed into — every visited
directory's relative path below the scan root is free of hidden components,
and every match's `projectPath` likewise, so no artifact directory below a
hidden directory is ever reported. -/
theorem C7_hidden_never_recursed (p : Path) (t : Entry) :
    (∀ q ∈ visitedDirs p t, ∀ s, q = p ++ s → ∀ nm ∈ s, startsWithDot nm = false) ∧
    (∀ m ∈ scan p t, ∃ s, m.path = p ++ s ∧ ∀ nm ∈ s, startsWithDot nm = false) := by
  constructor
  · intro q hq s hs nm hnm
    rcases mem_visitedDirs_shape p t q hq with hqp | ⟨s2, hs2, -, hall⟩
    · rw [hqp] at hs
      have h3 : p ++ ([] : Path) = p ++ s := by
        rw [List.append_nil]
        exact hs
      have h4 : ([] : Path) = s := List.append_cancel_left h3
      rw [← h4] at hnm
      simp at hnm
    · have hss : s = s2 := by
        rw [hs2] at hs
        exact (List.append_cancel_left hs.symm)
      subst hss
      exact (recursableName_spec nm (hall nm hnm)).1
  · intro m hm
    obtain ⟨s, hs, hall⟩ := mem_scan_shape p t m hm
    exact ⟨s, hs, fun nm hnm => (recursableName_spec nm (hall nm hnm)).1⟩

/-- Witness for C7: at the concrete two-project tree, the visited directory
`root/projA` has no hidden component, and the first match's path likewise. -/
theorem C7_witness :
    startsWithDot "projA" = false ∧
    (∃ s, (["root", "projA"] : Path) = ["root"] ++ s ∧
      ∀ nm ∈ s, startsWithDot nm = false) := by
  constructor
  · refine (C7_hidden_never_recursed ["root"] exRoot).1 ["root", "projA"] ?_
      ["projA"] rfl "projA" (by simp)
    simp [exRoot, visitedDirs, visitedChildren, pathJoin, startsWithDot]
  · have hmem : ({ path := ["root", "projA"], size := 10, type := .node } : ProjectInfo)
        ∈ scan ["root"] exRoot := by
      simp [scan, findBuildDirectories, scanChildren, getDirectorySize, sizeChildren,
        isRustProject, hasCargoToml, entryName, pathJoin, pathDirname, exRoot,
        startsWithDot]
    exact (C7_hidden_never_recursed ["root"] exRoot).2 _ hmem

/-- Artifact-free tree for the C8 witness. -/
def exC8 : Entry :=
  .dir "r" true
    [ .file "readme.md" 4,
      .dir "src" true [ .file "main.rs" 8 ],
      .dir "target" true [ .file "stray" 1 ] ]

/-- C8: on a tree with no `node_modules` directory and no `target` directory
whose parent lists a `Cargo.toml`, the scan returns the empty sequence. -/
theorem C8_no_artifacts_empty (p : Path) (t : Entry)
    (h : noArtifacts t = true) : scan p t = [] := by
  match t with
  | .file n s => rfl
  | .dir n false cs => rfl
  | .dir n true cs =>
    simp only [noArtifacts] at h
    exact noArtifacts_scanChildren cs p n cs [] h

/-- Witness for C8: the scan of a concrete artifact-free tree (its `target`
directory is unconfirmed — no `Cargo.toml` beside it) is empty. -/
theorem C8_witness : scan ["r"] exC8 = [] := by
  refine C8_no_artifacts_empty ["r"] exC8 ?_
  simp [exC8, noArtifacts, noArtifactsIn, hasCargoToml, entryName]

theorem prefix_cancel_left {α : Type} (l : List α) {s t : List α}
    (h : l ++ s <+: l ++ t) : s <+: t := by
  obtain ⟨r, hr⟩ := h
  refine ⟨r, ?_⟩
  rw [List.append_assoc] at hr
  exact List.append_cancel_left hr

/-- C2: an artifact-named `target` directory whose parent is not confirmed
by `isRustProject` is neither reported nor explored.  On a well-formed tree
every rust match's `projectPath` denotes a directory that `isRustProject`
confirms (so an unconfirmed parent never yields a match), no visited
directory lies at or below a path with a `target` component, and no match's
`projectPath` passes through a `target` component (so nothing nested below
any `target` directory is reported). -/
theorem C2_unconfirmed_target_excluded (p : Path) (t : Entry)
    (h : uniqueSiblings t) :
    (∀ m ∈ scan p t, m.type = ProjType.rust →
      ∀ s e, m.path = p ++ s → EntryAt t s e → isRustProject e = true) ∧
    (∀ q ∈ visitedDirs p t, ∀ s, q = p ++ s → "target" ∉ s) ∧
    (∀ m ∈ scan p t, ∀ s, m.path = p ++ s → "target" ∉ s) := by
  refine ⟨?_, ?_, ?_⟩
  · intro m hm htype s e hpath hat
    match t with
    | .file n s2 => simp [scan, findBuildDirectories] at hm
    | .dir n false cs => simp [scan, findBuildDirectories] at hm
    | .dir n true cs =>
      rcases scanChildren_rust_justified (.dir n true cs) p cs p n true cs [] []
        (by simp) (.refl _) (List.Subset.refl cs) m hm with h2 | h2
      · simp at h2
      · obtain ⟨s', e', hpath', hat', hrust⟩ := h2 htype
        have hss : s = s' := by
          rw [hpath'] at hpath
          exact (List.append_cancel_left hpath).symm
        subst hss
        rw [EntryAt_unique h hat hat']
        exact hrust
  · intro q hq s hs hmem
    rcases mem_visitedDirs_shape p t q hq with hqp | ⟨s2, hs2, -, hall⟩
    · rw [hqp] at hs
      have h3 : p ++ ([] : Path) = p ++ s := by
        rw [List.append_nil]
        exact hs
      have h4 : ([] : Path) = s := List.append_cancel_left h3
      rw [← h4] at hmem
      simp at hmem
    · have hss : s = s2 := by
        rw [hs2] at hs
        exact List.append_cancel_left hs.symm
      subst hss
      have := hall _ hmem
      rw [recursableName_target] at this
      simp at this
  · intro m hm s hs hmem
    obtain ⟨s2, hs2, hall⟩ := mem_scan_shape p t m hm
    have hss : s = s2 := by
      rw [hs2] at hs
      exact List.append_cancel_left hs.symm
    subst hss
    have := hall _ hmem
    rw [recursableName_target] at this
    simp at this

/-- Witness for C2: at the concrete two-project tree, the rust match's
parent directory is confirmed. -/
theorem C2_witness :
    isRustProject (.dir "projB" true
      [ .file "Cargo.toml" 74, .dir "target" true [ .file "out.bin" 20 ] ]) = true := by
  have hu : uniqueSiblings exRoot := by
    simp [exRoot, uniqueSiblings, uniqSibAux, entryName]
  have hmem : ({ path := ["root", "projB"], size := 20, type := .rust } : ProjectInfo)
      ∈ scan ["root"] exRoot := by
    simp [scan, findBuildDirectories, scanChildren, getDirectorySize, sizeChildren,
      isRustProject, hasCargoToml, entryName, pathJoin, pathDirname, exRoot,
      startsWithDot]
  have hat : EntryAt exRoot ["projB"]
      (.dir "projB" true
        [ .file "Cargo.toml" 74, .dir "target" true [ .file "out.bin" 20 ] ]) := by
    have : ((.dir "projB" true
        [ .file "Cargo.toml" 74, .dir "target" true [ .file "out.bin" 20 ] ]) : Entry)
        ∈ [ (.dir "projA" true
              [ .dir "node_modules" true [ .dir "pkg" true [ .file "index.js" 10 ] ] ] : Entry),
            .dir "projB" true
              [ .file "Cargo.toml" 74, .dir "target" true [ .file "out.bin" 20 ] ] ] := by
      simp
    exact .step this (.refl _)
  exact (C2_unconfirmed_target_excluded ["root"] exRoot hu).1 _ hmem rfl
    ["projB"] _ rfl hat

/-- C3: the traversal never descends into a matched artifact directory —
no visited directory path has a `node_modules` or `target` component below
the scan root, and no match's artifact directory is an ancestor of (or
equal to) another match's `projectPath`. -/
theorem C3_no_descent_into_matches (p : Path) (t : Entry) :
    (∀ q ∈ visitedDirs p t, ∀ s, q = p ++ s →
      ∀ nm ∈ s, nm ≠ "node_modules" ∧ nm ≠ "target") ∧
    (∀ m m' : ProjectInfo, m ∈ scan p t → m' ∈ scan p t →
      ¬ (m.path ++ [artifactDirName m.type]) <+: m'.path) := by
  constructor
  · intro q hq s hs nm hnm
    rcases mem_visitedDirs_shape p t q hq with hqp | ⟨s2, hs2, -, hall⟩
    · rw [hqp] at hs
      have h3 : p ++ ([] : Path) = p ++ s := by
        rw [List.append_nil]
        exact hs
      have h4 : ([] : Path) = s := List.append_cancel_left h3
      rw [← h4] at hnm
      simp at hnm
    · have hss : s = s2 := by
        rw [hs2] at hs
        exact List.append_cancel_left hs.symm
      subst hss
      have := recursableName_spec nm (hall _ hnm)
      exact ⟨this.2.1, this.2.2⟩
  · intro m m' hm hm' hpre
    obtain ⟨s, hs, -⟩ := mem_scan_shape p t m hm
    obtain ⟨s', hs', hall'⟩ := mem_scan_shape p t m' hm'
    rw [hs, hs', List.append_assoc] at hpre
    have hpre2 : s ++ [artifactDirName m.type] <+: s' :=
      prefix_cancel_left p hpre
    have hmem : artifactDirName m.type ∈ s' := hpre2.subset (by simp)
    have hrec := hall' _ hmem
    cases htype : m.type with
    | node =>
      rw [htype] at hrec
      rw [show artifactDirName .node = "node_modules" from rfl,
        recursableName_node] at hrec
      simp at hrec
    | rust =>
      rw [htype] at hrec
      rw [show artifactDirName .rust = "target" from rfl,
        recursableName_target] at hrec
      simp at hrec

/-- Witness for C3: at the concrete two-project tree, the first match's
artifact directory is not an ancestor of the second match's path. -/
theorem C3_witness :
    ¬ ((["root", "projA"] : Path) ++ [artifactDirName .node] <+:
      (["root", "projB"] : Path)) := by
  have hmA : ({ path := ["root", "projA"], size := 10, type := .node } : ProjectInfo)
      ∈ scan ["root"] exRoot := by
    simp [scan, findBuildDirectories, scanChildren, getDirectorySize, sizeChildren,
      isRustProject, hasCargoToml, entryName, pathJoin, pathDirname, exRoot,
      startsWithDot]
  have hmB : ({ path := ["root", "projB"], size := 20, type := .rust } : ProjectInfo)
      ∈ scan ["root"] exRoot := by
    simp [scan, findBuildDirectories, scanChildren, getDirectorySize, sizeChildren,
      isRustProject, hasCargoToml, entryName, pathJoin, pathDirname, exRoot,
      startsWithDot]
  exact (C3_no_descent_into_matches ["root"] exRoot).2 _ _ hmA hmB

/-- Target-free tree for the C9 witness. -/
def exC9 : Entry :=
  .dir "r" true
    [ .dir "projA" true [ .dir "node_modules" true [ .file "x" 6 ] ],
      .dir ".git" true [ .dir "node_modules" true [] ],
      .dir "docs" true [ .file "a.md" 2 ] ]

/-- C9: on a tree with no `target` directory anywhere, the earlier
version's `findNodeModules` and the later version's `findBuildDirectories`
visit the same directories in the same order and report the same matches
(projected to path and size, the fields both versions share). -/
theorem C9_old_new_equivalence (p : Path) (t : Entry)
    (h : noTargetDir t = true) :
    visitedDirsOld p t = visitedDirs p t ∧
    (scanOld p t).map (fun m => (m.path, m.size)) =
      (scan p t).map (fun m => (m.path, m.size)) := by
  match t with
  | .file n s => exact ⟨rfl, rfl⟩
  | .dir n false cs => exact ⟨rfl, rfl⟩
  | .dir n true cs =>
    simp only [noTargetDir] at h
    constructor
    · simp only [visitedDirsOld, visitedDirs]
      rw [old_new_visited cs p h]
    · exact old_new_scan cs p _ h

/-- Witness for C9: the two versions agree on a concrete target-free tree. -/
theorem C9_witness :
    visitedDirsOld ["r"] exC9 = visitedDirs ["r"] exC9 ∧
    (scanOld ["r"] exC9).map (fun m => (m.path, m.size)) =
      (scan ["r"] exC9).map (fun m => (m.path, m.size)) := by
  refine C9_old_new_equivalence ["r"] exC9 ?_
  simp [exC9, noTargetDir, noTargetIn]

/-- The directory being listed enters the loop only through `isRustProject`,
which never examines its name: the loop's output is invariant under
renaming the parent. -/
theorem scanChildren_parent_name (p : Path) (n n2 : String) (lv : Bool)
    (pcs : List Entry) (cs : List Entry) (res : List ProjectInfo) :
    scanChildren p (.dir n lv pcs) cs res =
      scanChildren p (.dir n2 lv pcs) cs res := by
  match cs with
  | [] => simp [scanChildren]
  | .file n3 s3 :: rest =>
    simp only [scanChildren]
    exact scanChildren_parent_name p n n2 lv pcs rest res
  | .dir nm l cc :: rest =>
    have hrp : isRustProject (.dir n lv pcs) = isRustProject (.dir n2 lv pcs) := by
      cases lv <;> rfl
    simp only [scanChildren, hrp]
    split
    · exact scanChildren_parent_name p n n2 lv pcs rest _
    · split
      · exact scanChildren_parent_name p n n2 lv pcs rest _
      · split
        · exact scanChildren_parent_name p n n2 lv pcs rest _
        · exact scanChildren_parent_name p n n2 lv pcs rest _
termination_by sizeOf cs

/-- Tree whose root is itself named `node_modules`, for C10: the root's own
name is never tested, its contents are traversed under the ordinary rules. -/
def exC10 : Entry :=
  .dir "node_modules" true
    [ .dir "proj" true [ .dir "node_modules" true [] ] ]

/-- C10: the scan root itself is never tested against artifact names — the
result does not depend on the root entry's name, every match's
`projectPath` extends the start path (so only children and deeper
descendants can match), no match reports the root itself as its artifact
directory, and a root named `node_modules` is traversed normally. -/
theorem C10_root_never_matched :
    (∀ (p : Path) (n n2 : String) (l : Bool) (cs : List Entry)
      (res : List ProjectInfo),
      findBuildDirectories p (.dir n l cs) res =
        findBuildDirectories p (.dir n2 l cs) res) ∧
    (∀ (p : Path) (t : Entry) (m : ProjectInfo), m ∈ scan p t →
      ∃ s, m.path = p ++ s) ∧
    (∀ (p : Path) (t : Entry) (m : ProjectInfo), m ∈ scan p t →
      m.path ++ [artifactDirName m.type] ≠ p) ∧
    scan ["node_modules"] exC10 =
      [{ path := ["node_modules", "proj"], size := 0, type := .node }] := by
  refine ⟨?_, ?_, ?_, ?_⟩
  · intro p n n2 l cs res
    cases l with
    | false => rfl
    | true =>
      simp only [findBuildDirectories]
      exact scanChildren_parent_name p n n2 true cs cs res
  · intro p t m hm
    obtain ⟨s, hs, -⟩ := mem_scan_shape p t m hm
    exact ⟨s, hs⟩
  · intro p t m hm heq
    obtain ⟨s, hs, -⟩ := mem_scan_shape p t m hm
    rw [hs] at heq
    have := congrArg List.length heq
    simp at this
  · simp [scan, findBuildDirectories, scanChildren, getDirectorySize, sizeChildren,
      isRustProject, hasCargoToml, entryName, pathJoin, pathDirname, exC10,
      startsWithDot]

/-- Witness for C10: the concrete match under the artifact-named root has
the start path as a proper prefix and does not name the root as its
artifact directory. -/
theorem C10_witness :
    (∃ s, (["node_modules", "proj"] : Path) = ["node_modules"] ++ s) ∧
    (["node_modules", "proj"] : Path) ++ [artifactDirName .node] ≠ ["node_modules"] := by
  have hmem : ({ path := ["node_modules", "proj"], size := 0, type := .node } : ProjectInfo)
      ∈ scan ["node_modules"] exC10 := by
    simp [scan, findBuildDirectories, scanChildren, getDirectorySize, sizeChildren,
      isRustProject, hasCargoToml, entryName, pathJoin, pathDirname, exC10,
      startsWithDot]
  exact ⟨C10_root_never_matched.2.1 _ _ _ hmem,
    C10_root_never_matched.2.2.1 _ _ _ hmem⟩

end Hawking
